import Mathlib

/-! # split-buffer: shallow embedding and verification

Embedding of the length-prefixed buffer codec in src/src/lib.rs:
a configuration (length width, byte order, optional size hint) builds an
encoded buffer from a sequence of byte-string parts, and an iterator walks
the buffer back into parts.

Bytes are modelled as natural numbers; every byte a build produces is below
256.  Machine integers are naturals with explicit bounds (u8 max 255, u16 max
65535, u32 max 2^32-1, usize on the 64-bit target max 2^64-1).  Host
endianness (what the Rust to_ne_bytes / from_ne_bytes resolve to) is passed
explicitly as a Boolean hostLittle, so encode-host and decode-host can be
distinguished.  A Rust panic (slice index out of range) is the explicit
DecodeResult.panicRaised outcome.
-/

namespace SplitBuffer

/-- Endianness enum, lib.rs lines 1-7.  repr(u8): Big = 0, Little = 1, Native = 2. -/
inductive Endianness where
  | Big
  | Little
  | Native
deriving DecidableEq, Repr

/-- MaxLen enum, lib.rs lines 9-16.  repr(u8): U8 = 0, U16 = 1, U32 = 2, Usize = 3. -/
inductive MaxLen where
  | U8
  | U16
  | U32
  | Usize
deriving DecidableEq, Repr

/-- The u8 discriminant of Endianness (what `self.endianness as u8` pushes, line 63). -/
def Endianness.tag : Endianness → Nat
  | .Big => 0
  | .Little => 1
  | .Native => 2

/-- The u8 discriminant of MaxLen (what `self.max_len as u8` pushes, line 64). -/
def MaxLen.tag : MaxLen → Nat
  | .U8 => 0
  | .U16 => 1
  | .U32 => 2
  | .Usize => 3

/-- size_of for usize on the 64-bit target. -/
def usizeBytes : Nat := 8

/-- Width in bytes of each length field for a given MaxLen (lines 51-56, 158, 165, ...). -/
def MaxLen.width : MaxLen → Nat
  | .U8 => 1
  | .U16 => 2
  | .U32 => 4
  | .Usize => usizeBytes

/-- Largest length value accepted by `uN::try_from(len)` for the MaxLen's integer type. -/
def MaxLen.maxVal (m : MaxLen) : Nat := 2 ^ (8 * m.width) - 1

/-- Config struct, lib.rs lines 18-22. -/
structure Config where
  max_len : MaxLen
  endianness : Endianness
  size_hint : Option Nat
deriving DecidableEq, Repr

/-- Config::with_max_len, lines 25-28. -/
def Config.with_max_len (c : Config) (m : MaxLen) : Config :=
  { c with max_len := m }

/-- Config::with_endianness, lines 30-33. -/
def Config.with_endianness (c : Config) (e : Endianness) : Config :=
  { c with endianness := e }

/-- Config::with_size_hint, lines 35-38. -/
def Config.with_size_hint (c : Config) (n : Nat) : Config :=
  { c with size_hint := some n }

/-- Default for Config, lines 118-122. -/
def Config.default : Config :=
  { max_len := .Usize, endianness := .Big, size_hint := none }

/-- Little-endian byte list of width w for value n (uN::to_le_bytes). -/
def natToLeBytes : Nat → Nat → List Nat
  | 0, _ => []
  | w + 1, n => n % 256 :: natToLeBytes w (n / 256)

/-- Big-endian byte list of width w for value n (uN::to_be_bytes). -/
def natToBeBytes (w n : Nat) : List Nat :=
  (natToLeBytes w n).reverse

/-- uN::from_le_bytes: each entry is a u8, so it contributes its value mod 256. -/
def leBytesToNat : List Nat → Nat
  | [] => 0
  | b :: bs => b % 256 + 256 * leBytesToNat bs

/-- uN::from_be_bytes. -/
def beBytesToNat (bs : List Nat) : Nat :=
  leBytesToNat bs.reverse

/-- uN::to_ne_bytes on a host whose native order is little iff hostLittle. -/
def natToNeBytes (hostLittle : Bool) (w n : Nat) : List Nat :=
  if hostLittle then natToLeBytes w n else natToBeBytes w n

/-- uN::from_ne_bytes on a host whose native order is little iff hostLittle. -/
def neBytesToNat (hostLittle : Bool) (bs : List Nat) : Nat :=
  if hostLittle then leBytesToNat bs else beBytesToNat bs

/-- Bytes written for one length field: the match on (endianness, max_len) in
Config::build, lines 70-107, restricted to the serialization direction. -/
def lenBytes (hostLittle : Bool) (e : Endianness) (m : MaxLen) (len : Nat) : List Nat :=
  match e with
  | .Big => natToBeBytes m.width len
  | .Little => natToLeBytes m.width len
  | .Native => natToNeBytes hostLittle m.width len

/-- Value read from one length field: the match on (endianness, max_len) in
BufferIterator::next, lines 156-241, restricted to the deserialization direction. -/
def readLen (hostLittle : Bool) (e : Endianness) (_m : MaxLen) (bs : List Nat) : Nat :=
  match e with
  | .Big => beBytesToNat bs
  | .Little => leBytesToNat bs
  | .Native => neBytesToNat hostLittle bs

/-- The per-part loop of Config::build, lines 66-110: for each part in order,
uN::try_from(len) (error when the length exceeds the width's maximum), then the
length bytes in the configured order, then the raw part bytes. -/
def buildParts (hostLittle : Bool) (e : Endianness) (m : MaxLen) :
    List (List Nat) → Except Unit (List Nat)
  | [] => .ok []
  | p :: ps =>
    if p.length ≤ m.maxVal then
      match buildParts hostLittle e m ps with
      | .ok rest => .ok (lenBytes hostLittle e m p.length ++ p ++ rest)
      | .error err => .error err
    else
      .error ()

/-- The capacity estimate of Config::build, lines 48-59: the explicit size hint if
given, else count * width + total part bytes + 2. -/
def Config.capacityEstimate (c : Config) (parts : List (List Nat)) : Nat :=
  c.size_hint.getD (parts.length * c.max_len.width + (parts.map List.length).sum + 2)

/-- Config::build, lines 40-115: Vec::with_capacity(size hint) affects allocation only,
then the two header tag bytes are pushed, then the length-prefixed parts.  The error
type TryFromIntError carries no data and is modelled as Unit. -/
def Config.build (hostLittle : Bool) (c : Config) (parts : List (List Nat)) :
    Except Unit (List Nat) :=
  let _cap := c.capacityEstimate parts
  match buildParts hostLittle c.endianness c.max_len parts with
  | .ok body => .ok (c.endianness.tag :: c.max_len.tag :: body)
  | .error err => .error err

/-- The transmute of the buffer's first byte back to Endianness (line 139); defined
exactly on the repr(u8) values, none elsewhere (undefined behavior in Rust). -/
def Endianness.ofTag : Nat → Option Endianness
  | 0 => some .Big
  | 1 => some .Little
  | 2 => some .Native
  | _ => none

/-- The transmute of the buffer's second byte back to MaxLen (line 140). -/
def MaxLen.ofTag : Nat → Option MaxLen
  | 0 => some .U8
  | 1 => some .U16
  | 2 => some .U32
  | 3 => some .Usize
  | _ => none

/-- Rust slice l[start..stop] (in bounds). -/
def listSlice (l : List Nat) (start stop : Nat) : List Nat :=
  (l.drop start).take (stop - start)

/-- Outcome of one BufferIterator::next call. -/
inductive DecodeStep where
  /-- next returned None: no bytes remain at the cursor. -/
  | done
  /-- next returned Some(part), leaving the cursor at nextOffset. -/
  | yield (part : List Nat) (nextOffset : Nat)
  /-- a slice index was out of range: the Rust code panics. -/
  | panicRaised
deriving DecidableEq, Repr

/-- BufferIterator::next, lines 147-244, for headerless buffer contents and a cursor:
return None when no bytes remain; else read width bytes at the cursor as the next
length, then yield the slice of that many following bytes.  Every out-of-range slice
index is a panic in Rust. -/
def nextStep (hostLittle : Bool) (e : Endianness) (m : MaxLen)
    (buffer : List Nat) (offset : Nat) : DecodeStep :=
  if buffer.length < offset then .panicRaised
  else if buffer.length = offset then .done
  else
    let bytesStart := offset + m.width
    if buffer.length < bytesStart then .panicRaised
    else
      let len := readLen hostLittle e m (listSlice buffer offset bytesStart)
      if buffer.length < bytesStart + len then .panicRaised
      else .yield (listSlice buffer bytesStart (bytesStart + len)) (bytesStart + len)

/-- Outcome of driving a BufferIterator to exhaustion. -/
inductive DecodeResult where
  /-- the iterator yielded exactly these parts, then None. -/
  | ok (parts : List (List Nat))
  /-- some next call hit an out-of-range slice index: the Rust code panics. -/
  | panicRaised
  /-- Modelled from the spec: the MalformedBufferError decode error value of
  spec sections 7 and 8.  No such type exists in src/src/lib.rs and the source
  decoder never produces it (it panics instead); the constructor exists so claims
  that mention MalformedBufferError can be stated against the code. -/
  | malformed
deriving DecidableEq, Repr

/-- Drive nextStep until None, collecting parts.  Fuel bounds the recursion; every
yield advances the cursor by at least one byte, so buffer length + 1 fuel is always
enough starting from cursor 0. -/
def decodeFrom (hostLittle : Bool) (e : Endianness) (m : MaxLen) (buffer : List Nat) :
    Nat → Nat → DecodeResult
  | 0, _ => .panicRaised
  | fuel + 1, offset =>
    match nextStep hostLittle e m buffer offset with
    | .done => .ok []
    | .panicRaised => .panicRaised
    | .yield p nextOffset =>
      match decodeFrom hostLittle e m buffer fuel nextOffset with
      | .ok ps => .ok (p :: ps)
      | r => r

/-- IntoIterator for Buffer (lines 134-143) followed by full iteration: read the two
header bytes back into Endianness and MaxLen (transmute: none on an out-of-range tag,
undefined behavior in Rust; likewise indexing bytes 0 and 1 of a too-short buffer
panics), then iterate over the remaining bytes from cursor 0. -/
def decodeBuffer (hostLittle : Bool) (buf : List Nat) : Option DecodeResult :=
  match buf with
  | b0 :: b1 :: rest =>
    match Endianness.ofTag b0, MaxLen.ofTag b1 with
    | some e, some m => some (decodeFrom hostLittle e m rest (rest.length + 1) 0)
    | _, _ => none
  | _ => none

/-! ## Helper lemmas -/

theorem natToLeBytes_length (w n : Nat) : (natToLeBytes w n).length = w := by
  induction w generalizing n with
  | zero => rfl
  | succ w ih => simp [natToLeBytes, ih]

theorem natToBeBytes_length (w n : Nat) : (natToBeBytes w n).length = w := by
  simp [natToBeBytes, natToLeBytes_length]

theorem lenBytes_length (hl : Bool) (e : Endianness) (m : MaxLen) (len : Nat) :
    (lenBytes hl e m len).length = m.width := by
  cases e with
  | Big => simp [lenBytes, natToBeBytes_length]
  | Little => simp [lenBytes, natToLeBytes_length]
  | Native =>
    cases hl <;>
      simp [lenBytes, natToNeBytes, natToLeBytes_length, natToBeBytes_length]

theorem MaxLen.width_pos (m : MaxLen) : 0 < m.width := by
  cases m <;> simp [MaxLen.width, usizeBytes]

theorem leBytesToNat_natToLeBytes (w n : Nat) :
    leBytesToNat (natToLeBytes w n) = n % 256 ^ w := by
  induction w generalizing n with
  | zero => simp [natToLeBytes, leBytesToNat, Nat.mod_one]
  | succ w ih =>
    simp only [natToLeBytes, leBytesToNat, ih]
    rw [pow_succ', Nat.mod_mul, Nat.mod_mod_of_dvd n dvd_rfl]

theorem beBytesToNat_natToBeBytes (w n : Nat) :
    beBytesToNat (natToBeBytes w n) = n % 256 ^ w := by
  rw [beBytesToNat, natToBeBytes, List.reverse_reverse, leBytesToNat_natToLeBytes]

theorem lt_pow_of_le_maxVal {m : MaxLen} {n : Nat} (h : n ≤ m.maxVal) :
    n < 256 ^ m.width := by
  have h2 : (256 : Nat) ^ m.width = 2 ^ (8 * m.width) := by
    rw [pow_mul]; norm_num
  have hpos : 0 < (2 : Nat) ^ (8 * m.width) := pow_pos (by norm_num) _
  unfold MaxLen.maxVal at h
  omega

theorem readLen_lenBytes (hl : Bool) (e : Endianness) (m : MaxLen) {n : Nat}
    (h : n ≤ m.maxVal) : readLen hl e m (lenBytes hl e m n) = n := by
  have hlt : n < 256 ^ m.width := lt_pow_of_le_maxVal h
  cases e with
  | Big => simp [readLen, lenBytes, beBytesToNat_natToBeBytes, Nat.mod_eq_of_lt hlt]
  | Little => simp [readLen, lenBytes, leBytesToNat_natToLeBytes, Nat.mod_eq_of_lt hlt]
  | Native =>
    cases hl <;>
      simp [readLen, lenBytes, natToNeBytes, neBytesToNat,
        beBytesToNat_natToBeBytes, leBytesToNat_natToLeBytes, Nat.mod_eq_of_lt hlt]

theorem endianness_ofTag_tag (e : Endianness) : Endianness.ofTag e.tag = some e := by
  cases e <;> rfl

theorem maxLen_ofTag_tag (m : MaxLen) : MaxLen.ofTag m.tag = some m := by
  cases m <;> rfl

theorem Config.build_eq (hl : Bool) (c : Config) (parts : List (List Nat)) :
    Config.build hl c parts
      = match buildParts hl c.endianness c.max_len parts with
        | .ok body => .ok (c.endianness.tag :: c.max_len.tag :: body)
        | .error err => .error err := rfl

theorem buildParts_cons_ok (hl : Bool) (e : Endianness) (m : MaxLen)
    (p : List Nat) (ps : List (List Nat)) (b : List Nat) :
    buildParts hl e m (p :: ps) = .ok b ↔
      p.length ≤ m.maxVal ∧
        ∃ rest, buildParts hl e m ps = .ok rest ∧
          b = lenBytes hl e m p.length ++ (p ++ rest) := by
  by_cases hp : p.length ≤ m.maxVal
  · cases hps : buildParts hl e m ps with
    | ok rest => simp [buildParts, hps, hp, eq_comm]
    | error err => simp [buildParts, hps, hp]
  · simp [buildParts, hp]

theorem buildParts_ok_of_le (hl : Bool) (e : Endianness) (m : MaxLen) :
    ∀ ps : List (List Nat), (∀ p ∈ ps, p.length ≤ m.maxVal) →
      ∃ body, buildParts hl e m ps = .ok body := by
  intro ps
  induction ps with
  | nil => exact fun _ => ⟨[], rfl⟩
  | cons p ps ih =>
    intro h
    obtain ⟨rest, hrest⟩ := ih (fun q hq => h q (List.mem_cons_of_mem p hq))
    exact ⟨_, (buildParts_cons_ok hl e m p ps _).mpr
      ⟨h p (List.mem_cons_self p ps), rest, hrest, rfl⟩⟩

theorem buildParts_le_of_ok (hl : Bool) (e : Endianness) (m : MaxLen) :
    ∀ (ps : List (List Nat)) (body : List Nat), buildParts hl e m ps = .ok body →
      ∀ p ∈ ps, p.length ≤ m.maxVal := by
  intro ps
  induction ps with
  | nil => simp
  | cons p ps ih =>
    intro body hb q hq
    obtain ⟨hp, rest, hrest, -⟩ := (buildParts_cons_ok hl e m p ps body).mp hb
    rcases List.mem_cons.mp hq with rfl | hq
    · exact hp
    · exact ih rest hrest q hq

theorem buildParts_count_le (hl : Bool) (e : Endianness) (m : MaxLen) :
    ∀ (ps : List (List Nat)) (body : List Nat), buildParts hl e m ps = .ok body →
      ps.length ≤ body.length := by
  intro ps
  induction ps with
  | nil => simp
  | cons p ps ih =>
    intro body hb
    obtain ⟨-, rest, hrest, rfl⟩ := (buildParts_cons_ok hl e m p ps body).mp hb
    have h1 := ih rest hrest
    have h2 := m.width_pos
    have h3 := lenBytes_length hl e m p.length
    simp only [List.length_append, List.length_cons]
    omega

theorem listSlice_middle (pre mid rest : List Nat) :
    listSlice (pre ++ (mid ++ rest)) pre.length (pre.length + mid.length) = mid := by
  unfold listSlice
  rw [List.drop_left, Nat.add_sub_cancel_left, List.take_left]

theorem nextStep_yield (hl : Bool) (e : Endianness) (m : MaxLen)
    (pre p rest : List Nat) (hlen : p.length ≤ m.maxVal) :
    nextStep hl e m (pre ++ (lenBytes hl e m p.length ++ (p ++ rest))) pre.length
      = .yield p (pre.length + m.width + p.length) := by
  have hB := lenBytes_length hl e m p.length
  have hw := m.width_pos
  have hlen1 : (pre ++ (lenBytes hl e m p.length ++ (p ++ rest))).length
      = pre.length + m.width + p.length + rest.length := by
    simp [List.length_append, hB]
    omega
  have hs1 : listSlice (pre ++ (lenBytes hl e m p.length ++ (p ++ rest)))
      pre.length (pre.length + m.width) = lenBytes hl e m p.length := by
    have h1 := listSlice_middle pre (lenBytes hl e m p.length) (p ++ rest)
    rwa [hB] at h1
  have hs2 : listSlice (pre ++ (lenBytes hl e m p.length ++ (p ++ rest)))
      (pre.length + m.width) (pre.length + m.width + p.length) = p := by
    have h2 := listSlice_middle (pre ++ lenBytes hl e m p.length) p rest
    simp only [List.length_append, hB, List.append_assoc] at h2
    exact h2
  simp only [nextStep]
  rw [hs1, readLen_lenBytes hl e m hlen, hs2, hlen1]
  rw [if_neg (by omega), if_neg (by omega), if_neg (by omega), if_neg (by omega)]

theorem decodeFrom_at_end (hl : Bool) (e : Endianness) (m : MaxLen) (buf : List Nat)
    (fuel : Nat) : decodeFrom hl e m buf (fuel + 1) buf.length = .ok [] := by
  simp [decodeFrom, nextStep]

theorem decodeFrom_buildParts (hl : Bool) (e : Endianness) (m : MaxLen)
    (ps : List (List Nat)) :
    ∀ (A pre tail : List Nat) (fuel : Nat), buildParts hl e m ps = .ok A →
      decodeFrom hl e m (pre ++ (A ++ tail)) (fuel + ps.length) pre.length
        = match decodeFrom hl e m (pre ++ (A ++ tail)) fuel (pre.length + A.length) with
          | .ok qs => .ok (ps ++ qs)
          | r => r := by
  induction ps with
  | nil =>
    intro A pre tail fuel hA
    have hnil : A = [] := by
      have : (Except.ok [] : Except Unit (List Nat)) = .ok A := hA
      simpa using this.symm
    subst hnil
    simp only [List.nil_append, List.length_nil, Nat.add_zero]
    cases decodeFrom hl e m (pre ++ tail) fuel pre.length <;> simp
  | cons p ps ih =>
    intro A pre tail fuel hA
    obtain ⟨hp, rest, hrest, rfl⟩ := (buildParts_cons_ok hl e m p ps A).mp hA
    have hB := lenBytes_length hl e m p.length
    have hassoc : lenBytes hl e m p.length ++ (p ++ rest) ++ tail
        = lenBytes hl e m p.length ++ (p ++ (rest ++ tail)) := by
      simp [List.append_assoc]
    rw [hassoc]
    have hfuel : fuel + (p :: ps).length = (fuel + ps.length) + 1 := by
      simp [List.length_cons]
      omega
    rw [hfuel]
    rw [decodeFrom]
    rw [nextStep_yield hl e m pre p (rest ++ tail) hp]
    have ihh := ih rest (pre ++ (lenBytes hl e m p.length ++ p)) tail fuel hrest
    simp only [List.append_assoc, List.length_append, hB, Nat.add_assoc] at ihh
    simp only [Nat.add_assoc, List.length_append, hB]
    rw [ihh]
    cases decodeFrom hl e m (pre ++ (lenBytes hl e m p.length ++ (p ++ (rest ++ tail))))
        fuel (pre.length + (m.width + (p.length + rest.length))) <;> simp

theorem decodeBuffer_tags (hl : Bool) (e : Endianness) (m : MaxLen) (rest : List Nat) :
    decodeBuffer hl (e.tag :: m.tag :: rest)
      = some (decodeFrom hl e m rest (rest.length + 1) 0) := by
  simp only [decodeBuffer, endianness_ofTag_tag, maxLen_ofTag_tag]

theorem build_ok_inv (hl : Bool) (c : Config) (parts : List (List Nat)) (buf : List Nat)
    (h : c.build hl parts = .ok buf) :
    ∃ body, buildParts hl c.endianness c.max_len parts = .ok body ∧
      buf = c.endianness.tag :: c.max_len.tag :: body := by
  rw [Config.build_eq] at h
  cases hb : buildParts hl c.endianness c.max_len parts with
  | ok body =>
    rw [hb] at h
    refine ⟨body, rfl, ?_⟩
    injection h with h
    exact h.symm
  | error err =>
    rw [hb] at h
    cases h

theorem build_decode (hl : Bool) (c : Config) (parts : List (List Nat))
    (h : ∀ p ∈ parts, p.length ≤ c.max_len.maxVal) :
    ∃ buf, c.build hl parts = .ok buf ∧ decodeBuffer hl buf = some (.ok parts) := by
  obtain ⟨body, hbody⟩ := buildParts_ok_of_le hl c.endianness c.max_len parts h
  refine ⟨c.endianness.tag :: c.max_len.tag :: body, ?_, ?_⟩
  · rw [Config.build_eq, hbody]
  · rw [decodeBuffer_tags]
    have hcount := buildParts_count_le hl c.endianness c.max_len parts body hbody
    have hmain := decodeFrom_buildParts hl c.endianness c.max_len parts body [] []
      ((body.length - parts.length) + 1) hbody
    simp only [List.nil_append, List.append_nil, List.length_nil, Nat.zero_add] at hmain
    have hfuel : body.length + 1 = (body.length - parts.length) + 1 + parts.length := by
      omega
    rw [hfuel, hmain, decodeFrom_at_end]
    simp

theorem build_ok_iff (hl : Bool) (c : Config) (parts : List (List Nat)) :
    (∃ buf, c.build hl parts = .ok buf) ↔ ∀ p ∈ parts, p.length ≤ c.max_len.maxVal := by
  constructor
  · rintro ⟨buf, hbuf⟩
    obtain ⟨body, hb, -⟩ := build_ok_inv hl c parts buf hbuf
    exact buildParts_le_of_ok hl c.endianness c.max_len parts body hb
  · intro h
    obtain ⟨body, hb⟩ := buildParts_ok_of_le hl c.endianness c.max_len parts h
    exact ⟨_, by rw [Config.build_eq, hb]⟩

theorem build_error_iff (hl : Bool) (c : Config) (parts : List (List Nat)) :
    c.build hl parts = .error () ↔ ∃ p ∈ parts, c.max_len.maxVal < p.length := by
  constructor
  · intro h
    by_contra hno
    push_neg at hno
    obtain ⟨buf, hbuf⟩ := (build_ok_iff hl c parts).mpr hno
    rw [h] at hbuf
    cases hbuf
  · rintro ⟨p, hp, hlen⟩
    cases hres : c.build hl parts with
    | ok buf =>
      have := (build_ok_iff hl c parts).mp ⟨buf, hres⟩ p hp
      omega
    | error err =>
      cases err
      rfl

theorem buildParts_append_inv (hl : Bool) (e : Endianness) (m : MaxLen) :
    ∀ (xs ys : List (List Nat)) (b : List Nat), buildParts hl e m (xs ++ ys) = .ok b →
      ∃ b1 b2, buildParts hl e m xs = .ok b1 ∧ buildParts hl e m ys = .ok b2 ∧
        b = b1 ++ b2 := by
  intro xs
  induction xs with
  | nil => exact fun ys b hb => ⟨[], b, rfl, hb, rfl⟩
  | cons x xs ih =>
    intro ys b hb
    rw [List.cons_append] at hb
    obtain ⟨hx, rest, hrest, rfl⟩ := (buildParts_cons_ok hl e m x (xs ++ ys) b).mp hb
    obtain ⟨b1, b2, h1, h2, rfl⟩ := ih ys rest hrest
    refine ⟨lenBytes hl e m x.length ++ (x ++ b1), b2, ?_, h2, by simp [List.append_assoc]⟩
    exact (buildParts_cons_ok hl e m x xs _).mpr ⟨hx, b1, h1, rfl⟩

theorem buildParts_single_ok (hl : Bool) (e : Endianness) (m : MaxLen)
    (p b : List Nat) (hb : buildParts hl e m [p] = .ok b) :
    p.length ≤ m.maxVal ∧ b = lenBytes hl e m p.length ++ p := by
  obtain ⟨hp, rest, hrest, rfl⟩ := (buildParts_cons_ok hl e m p [] b).mp hb
  have h0 : (Except.ok [] : Except Unit (List Nat)) = .ok rest := hrest
  have hnil : rest = [] := by simpa using h0.symm
  subst hnil
  exact ⟨hp, by simp⟩

theorem nextStep_panic_short (hl : Bool) (e : Endianness) (m : MaxLen)
    (pre tail : List Nat) (L : Nat) (hlen : L ≤ m.maxVal) (hshort : tail.length < L) :
    nextStep hl e m (pre ++ (lenBytes hl e m L ++ tail)) pre.length = .panicRaised := by
  have hB := lenBytes_length hl e m L
  have hw := m.width_pos
  have hlen1 : (pre ++ (lenBytes hl e m L ++ tail)).length
      = pre.length + m.width + tail.length := by
    simp [hB]
    omega
  have hs1 : listSlice (pre ++ (lenBytes hl e m L ++ tail)) pre.length
      (pre.length + m.width) = lenBytes hl e m L := by
    have h1 := listSlice_middle pre (lenBytes hl e m L) tail
    rwa [hB] at h1
  simp only [nextStep]
  rw [hs1, readLen_lenBytes hl e m hlen, hlen1]
  rw [if_neg (by omega), if_neg (by omega), if_neg (by omega), if_pos (by omega)]

/-! ## Claim theorems -/

/-- C1: Round-trip.  For every finite sequence of byte-string parts and every
configuration whose length width can represent every part's byte length, build
succeeds and iterating the returned buffer (on the same host) yields exactly the
original sequence: same count, same order, byte-for-byte equal parts. -/
theorem roundTrip_decode_build (hl : Bool) (c : Config) (parts : List (List Nat))
    (h : ∀ p ∈ parts, p.length ≤ c.max_len.maxVal) :
    ∃ buf, c.build hl parts = .ok buf ∧ decodeBuffer hl buf = some (.ok parts) :=
  build_decode hl c parts h

/-- Witness for C1: the 8-bit big-endian configuration on parts [[1,2],[3]]. -/
theorem roundTrip_decode_build_witness :
    (∀ p ∈ [[1, 2], [3]], List.length p ≤ MaxLen.maxVal .U8) ∧
    ∃ buf, Config.build false ⟨.U8, .Big, none⟩ [[1, 2], [3]] = .ok buf ∧
      decodeBuffer false buf = some (.ok [[1, 2], [3]]) :=
  ⟨by decide, roundTrip_decode_build false ⟨.U8, .Big, none⟩ [[1, 2], [3]] (by decide)⟩

set_option maxRecDepth 8192 in
/-- C2: Length-limit enforcement.  build returns the overflow error exactly when some
part's byte length exceeds the maximum representable in the configured width (and
returns a buffer exactly when no part does); in particular a 256-byte part fails with
8-bit width and succeeds with 16-bit width. -/
theorem build_length_limit :
    (∀ (hl : Bool) (c : Config) (parts : List (List Nat)),
        (c.build hl parts = .error () ↔ ∃ p ∈ parts, c.max_len.maxVal < p.length) ∧
        ((∃ buf, c.build hl parts = .ok buf) ↔
          ∀ p ∈ parts, p.length ≤ c.max_len.maxVal)) ∧
    Config.build false ⟨.U8, .Big, none⟩ [List.replicate 256 0] = .error () ∧
    ∃ buf, Config.build false ⟨.U16, .Big, none⟩ [List.replicate 256 0] = .ok buf :=
  ⟨fun hl c parts => ⟨build_error_iff hl c parts, build_ok_iff hl c parts⟩,
    rfl, ⟨_, rfl⟩⟩

/-- C3 counterexample: the library has no MalformedBufferError decode outcome.  The
buffer built from the single part [1,2,3] (8-bit width, big-endian) is
[0,0,3,1,2,3]; dropping its final byte (one byte, fewer than the declared length 3)
makes decoding hit an out-of-range slice index, a Rust panic, not a
MalformedBufferError value. -/
theorem truncation_no_malformed_cex :
    Config.build false ⟨.U8, .Big, none⟩ [[1, 2, 3]] = .ok [0, 0, 3, 1, 2, 3] ∧
    decodeBuffer false [0, 0, 3, 1, 2] = some .panicRaised ∧
    decodeBuffer false [0, 0, 3, 1, 2] ≠ some .malformed :=
  ⟨rfl, rfl, by decide⟩

/-- C3 amended: removing k trailing bytes, 1 ≤ k < the last part's declared length,
from a built buffer makes decoding fail by a Rust panic (out-of-range slice index) —
an explicit failure, never a silently short slice — rather than by returning the
spec's MalformedBufferError value, which does not exist in the source. -/
theorem truncation_panics (hl : Bool) (c : Config) (parts : List (List Nat))
    (p : List Nat) (buf : List Nat) (k : Nat)
    (hb : c.build hl (parts ++ [p]) = .ok buf)
    (hk1 : 1 ≤ k) (hk2 : k < p.length) :
    decodeBuffer hl (buf.take (buf.length - k)) = some .panicRaised := by
  obtain ⟨body, hbody, rfl⟩ := build_ok_inv hl c (parts ++ [p]) buf hb
  obtain ⟨A, b2, hA, h2, rfl⟩ :=
    buildParts_append_inv hl c.endianness c.max_len parts [p] body hbody
  obtain ⟨hp, rfl⟩ := buildParts_single_ok hl c.endianness c.max_len p b2 h2
  have hB := lenBytes_length hl c.endianness c.max_len p.length
  have hw := c.max_len.width_pos
  have hkL : k ≤ p.length := le_of_lt hk2
  have htk : (p.take (p.length - k)).length = p.length - k := by
    rw [List.length_take]
    omega
  have htake : (c.endianness.tag :: c.max_len.tag ::
        (A ++ (lenBytes hl c.endianness c.max_len p.length ++ p))).take
      ((c.endianness.tag :: c.max_len.tag ::
        (A ++ (lenBytes hl c.endianness c.max_len p.length ++ p))).length - k)
      = c.endianness.tag :: c.max_len.tag ::
          (A ++ (lenBytes hl c.endianness c.max_len p.length ++ p.take (p.length - k))) := by
    have hlenb : (A ++ (lenBytes hl c.endianness c.max_len p.length ++ p)).length
        = A.length + c.max_len.width + p.length := by
      simp [hB]
      omega
    have harith : (c.endianness.tag :: c.max_len.tag ::
        (A ++ (lenBytes hl c.endianness c.max_len p.length ++ p))).length - k
        = ((A.length + c.max_len.width + (p.length - k)) + 1) + 1 := by
      simp only [List.length_cons, hlenb]
      omega
    rw [harith, List.take_succ_cons, List.take_succ_cons]
    have hassoc : A ++ (lenBytes hl c.endianness c.max_len p.length ++ p)
        = (A ++ lenBytes hl c.endianness c.max_len p.length) ++ p := by
      simp [List.append_assoc]
    have hoff : A.length + c.max_len.width + (p.length - k)
        = (A ++ lenBytes hl c.endianness c.max_len p.length).length + (p.length - k) := by
      simp [hB]
    rw [hassoc, hoff, List.take_append]
    simp [List.append_assoc]
  rw [htake, decodeBuffer_tags]
  have hcount := buildParts_count_le hl c.endianness c.max_len parts A hA
  have hAle : A.length ≤ (A ++ (lenBytes hl c.endianness c.max_len p.length ++
      p.take (p.length - k))).length := by
    simp
  have hfuel : (A ++ (lenBytes hl c.endianness c.max_len p.length ++
        p.take (p.length - k))).length + 1
      = (((A ++ (lenBytes hl c.endianness c.max_len p.length ++
          p.take (p.length - k))).length - parts.length) + 1) + parts.length := by
    omega
  have hmain := decodeFrom_buildParts hl c.endianness c.max_len parts A []
    (lenBytes hl c.endianness c.max_len p.length ++ p.take (p.length - k))
    (((A ++ (lenBytes hl c.endianness c.max_len p.length ++
      p.take (p.length - k))).length - parts.length) + 1) hA
  simp only [List.nil_append, List.length_nil, Nat.zero_add] at hmain
  rw [hfuel, hmain, decodeFrom,
    nextStep_panic_short hl c.endianness c.max_len A (p.take (p.length - k)) p.length hp
      (by omega)]

/-- Witness for C3 amended: the buffer built from parts [[9],[1,2,3]] with 8-bit
big-endian configuration, truncated by one byte. -/
theorem truncation_panics_witness :
    (Config.build false ⟨.U8, .Big, none⟩ ([[9]] ++ [[1, 2, 3]])
        = .ok [0, 0, 1, 9, 3, 1, 2, 3]) ∧
    1 ≤ 1 ∧ 1 < List.length [1, 2, 3] ∧
    decodeBuffer false ([0, 0, 1, 9, 3, 1, 2, 3].take
      ([0, 0, 1, 9, 3, 1, 2, 3].length - 1)) = some .panicRaised :=
  ⟨rfl, le_refl 1, by decide,
    truncation_panics false ⟨.U8, .Big, none⟩ [[9]] [1, 2, 3]
      [0, 0, 1, 9, 3, 1, 2, 3] 1 rfl (le_refl 1) (by decide)⟩

/-- C4 counterexample: build with Native order on a big-endian host (hostLittle =
false) stores the Native tag 2 itself — not the resolved concrete order tag (Big = 0
or Little = 1) — and the decoder re-resolves tag 2 against the decoding host, so the
same buffer decoded on a little-endian host does not yield the original parts (it
panics after misreading the length). -/
theorem native_order_cex :
    Config.build false ⟨.U16, .Native, none⟩ [[7]] = .ok [2, 1, 0, 1, 7] ∧
    (2 : Nat) ≠ Endianness.tag .Big ∧ (2 : Nat) ≠ Endianness.tag .Little ∧
    decodeBuffer true [2, 1, 0, 1, 7] = some .panicRaised ∧
    decodeBuffer true [2, 1, 0, 1, 7] ≠ some (.ok [[7]]) :=
  ⟨rfl, by decide, by decide, rfl, by decide⟩

/-- C4 amended: build with Native order writes each length prefix in the encoding
host's order but records the unresolved Native tag 2 in the header; the decoder
re-resolves tag 2 to the decoding host's order, so decoding recovers the parts when
(and, per the counterexample, in general only when) the decoding host's native order
matches the encoding host's. -/
theorem native_same_host_roundTrip (hl : Bool) (c : Config) (parts : List (List Nat))
    (he : c.endianness = .Native)
    (h : ∀ p ∈ parts, p.length ≤ c.max_len.maxVal) :
    ∃ buf, c.build hl parts = .ok buf ∧ buf.head? = some 2 ∧
      decodeBuffer hl buf = some (.ok parts) := by
  obtain ⟨buf, hb, hd⟩ := build_decode hl c parts h
  refine ⟨buf, hb, ?_, hd⟩
  obtain ⟨body, -, rfl⟩ := build_ok_inv hl c parts buf hb
  rw [he]
  rfl

/-- Witness for C4 amended: Native 16-bit configuration on a big-endian host with
parts [[7]]. -/
theorem native_same_host_roundTrip_witness :
    (Endianness.Native = Endianness.Native) ∧
    (∀ p ∈ [[7]], List.length p ≤ MaxLen.maxVal .U16) ∧
    ∃ buf, Config.build false ⟨.U16, .Native, none⟩ [[7]] = .ok buf ∧
      buf.head? = some 2 ∧ decodeBuffer false buf = some (.ok [[7]]) :=
  ⟨rfl, by decide,
    native_same_host_roundTrip false ⟨.U16, .Native, none⟩ [[7]] rfl (by decide)⟩

/-- C5: Empty input.  For every configuration, building from no parts succeeds,
returning exactly the two header tag bytes and nothing else, and decoding that
buffer yields the empty sequence of parts, not an error. -/
theorem empty_input_roundTrip (hl : Bool) (c : Config) :
    c.build hl [] = .ok [c.endianness.tag, c.max_len.tag] ∧
    ([c.endianness.tag, c.max_len.tag] : List Nat).length = 2 ∧
    decodeBuffer hl [c.endianness.tag, c.max_len.tag] = some (.ok []) := by
  refine ⟨rfl, rfl, ?_⟩
  have h := decodeBuffer_tags hl c.endianness c.max_len []
  simpa [decodeFrom, nextStep] using h

/-- C6: Byte-order fidelity.  Encoding [[1,3],[2,3,4]] with 32-bit width yields, in
big-endian order, the length prefixes 00 00 00 02 and 00 00 00 03 before the two
parts, and in little-endian order 02 00 00 00 and 03 00 00 00, at the same
positions. -/
theorem byte_order_fidelity (hl : Bool) :
    Config.build hl ⟨.U32, .Big, none⟩ [[1, 3], [2, 3, 4]]
      = .ok ([0, 2] ++ ([0, 0, 0, 2] ++ ([1, 3] ++ ([0, 0, 0, 3] ++ [2, 3, 4])))) ∧
    Config.build hl ⟨.U32, .Little, none⟩ [[1, 3], [2, 3, 4]]
      = .ok ([1, 2] ++ ([2, 0, 0, 0] ++ ([1, 3] ++ ([3, 0, 0, 0] ++ [2, 3, 4])))) :=
  ⟨rfl, rfl⟩

/-- C7: Header tag encoding.  Whenever build succeeds, the buffer's first byte is 0
for big-endian, 1 for little-endian or 2 for native, and its second byte is 0 for
1-byte, 1 for 2-byte, 2 for 4-byte or 3 for pointer-sized length width, matching the
configuration build was called with. -/
theorem header_tag_encoding (hl : Bool) (c : Config) (parts : List (List Nat))
    (buf : List Nat) (h : c.build hl parts = .ok buf) :
    buf.head? = some (match c.endianness with | .Big => 0 | .Little => 1 | .Native => 2) ∧
    buf.tail.head? = some (match c.max_len with
      | .U8 => 0 | .U16 => 1 | .U32 => 2 | .Usize => 3) := by
  obtain ⟨body, -, rfl⟩ := build_ok_inv hl c parts buf h
  constructor
  · cases c.endianness <;> rfl
  · cases c.max_len <;> rfl

/-- Witness for C7: the 16-bit little-endian configuration on parts [[5]]. -/
theorem header_tag_encoding_witness :
    Config.build false ⟨.U16, .Little, none⟩ [[5]] = .ok [1, 1, 1, 0, 5] ∧
    [1, 1, 1, 0, 5].head? = some 1 ∧ [1, 1, 1, 0, 5].tail.head? = some 1 :=
  ⟨rfl, (header_tag_encoding false ⟨.U16, .Little, none⟩ [[5]] [1, 1, 1, 0, 5] rfl).1,
    (header_tag_encoding false ⟨.U16, .Little, none⟩ [[5]] [1, 1, 1, 0, 5] rfl).2⟩

/-- C8: Size-hint noninterference.  For every host order, length width, byte order
and parts, any two size hints (including no hint) give the same build result:
identical buffer bytes on success and the same error on failure; the capacity
estimate affects allocation only. -/
theorem size_hint_noninterference (hl : Bool) (m : MaxLen) (e : Endianness)
    (parts : List (List Nat)) (h1 h2 : Option Nat) :
    Config.build hl ⟨m, e, h1⟩ parts = Config.build hl ⟨m, e, h2⟩ parts := by
  rw [Config.build_eq, Config.build_eq]

/-- C9: Setter frame property.  with_max_len sets only the length width,
with_endianness only the byte order, with_size_hint only the size hint (to the given
value); each leaves the other two fields of the configuration unchanged. -/
theorem setters_frame (c : Config) (m : MaxLen) (e : Endianness) (n : Nat) :
    ((c.with_max_len m).max_len = m ∧ (c.with_max_len m).endianness = c.endianness ∧
      (c.with_max_len m).size_hint = c.size_hint) ∧
    ((c.with_endianness e).endianness = e ∧ (c.with_endianness e).max_len = c.max_len ∧
      (c.with_endianness e).size_hint = c.size_hint) ∧
    ((c.with_size_hint n).size_hint = some n ∧ (c.with_size_hint n).max_len = c.max_len ∧
      (c.with_size_hint n).endianness = c.endianness) :=
  ⟨⟨rfl, rfl, rfl⟩, ⟨rfl, rfl, rfl⟩, ⟨rfl, rfl, rfl⟩⟩

/-- C10: Built-buffer header invariant.  Every buffer a successful build returns has
at least the two header bytes; its first byte is one of 0, 1, 2 and its second one of
0, 1, 2, 3; and the header reinterpretation done at iterator creation recovers
exactly the endianness and length-width settings of the building configuration, so
the transmute never sees an out-of-range tag on a library-produced buffer. -/
theorem built_header_invariant (hl : Bool) (c : Config) (parts : List (List Nat))
    (buf : List Nat) (h : c.build hl parts = .ok buf) :
    2 ≤ buf.length ∧
    (∃ b0, buf.head? = some b0 ∧ (b0 = 0 ∨ b0 = 1 ∨ b0 = 2) ∧
      Endianness.ofTag b0 = some c.endianness) ∧
    (∃ b1, buf.tail.head? = some b1 ∧ (b1 = 0 ∨ b1 = 1 ∨ b1 = 2 ∨ b1 = 3) ∧
      MaxLen.ofTag b1 = some c.max_len) := by
  obtain ⟨body, -, rfl⟩ := build_ok_inv hl c parts buf h
  refine ⟨by simp, ⟨c.endianness.tag, rfl, ?_, endianness_ofTag_tag _⟩,
    ⟨c.max_len.tag, rfl, ?_, maxLen_ofTag_tag _⟩⟩
  · cases c.endianness <;> simp [Endianness.tag]
  · cases c.max_len <;> simp [MaxLen.tag]

/-- Witness for C10: the default (pointer-width big-endian) configuration on parts
[[4,2]]. -/
theorem built_header_invariant_witness :
    Config.build false Config.default [[4, 2]]
        = .ok [0, 3, 0, 0, 0, 0, 0, 0, 0, 2, 4, 2] ∧
    (2 ≤ ([0, 3, 0, 0, 0, 0, 0, 0, 0, 2, 4, 2] : List Nat).length ∧
      (∃ b0, ([0, 3, 0, 0, 0, 0, 0, 0, 0, 2, 4, 2] : List Nat).head? = some b0 ∧
        (b0 = 0 ∨ b0 = 1 ∨ b0 = 2) ∧ Endianness.ofTag b0 = some Config.default.endianness) ∧
      (∃ b1, ([0, 3, 0, 0, 0, 0, 0, 0, 0, 2, 4, 2] : List Nat).tail.head? = some b1 ∧
        (b1 = 0 ∨ b1 = 1 ∨ b1 = 2 ∨ b1 = 3) ∧ MaxLen.ofTag b1 = some Config.default.max_len)) :=
  ⟨rfl, built_header_invariant false Config.default [[4, 2]]
    [0, 3, 0, 0, 0, 0, 0, 0, 0, 2, 4, 2] rfl⟩

end SplitBuffer
